/-
  Verification of the icpp object-loading / relocation / resolution core.

  Shallow embedding of the C++ sources:
    - src/loader.cpp      : ModuleLoader (resolver), Loader facade, Object cache
                            generation and InterpObject reconstruction
    - src/object-llvm.cpp : relocation pre-pass, instruction decode loop,
                            relocation deduplication

  Modelling conventions:
    - machine addresses are Nat; the C++ null pointer is the address 0;
    - a C++ function returning a possibly-null pointer is modelled with
      Option (none = nullptr);
    - the resolver's data-indirection return value (the address of the
      cache slot for a name, a stable pointer-to-pointer) is modelled by
      the constructor SymAddr.slot, a direct address by SymAddr.direct;
    - std::unordered_map is an association list whose insert is a no-op on
      an existing key; std::map is an association list kept sorted by key;
    - external collaborators (native dlopen/dlsym, the LLVM decoder, the
      symbol-hash index on disk) are fields of a LoaderEnv record, fixed
      for the duration of a run.
-/
import Mathlib

namespace Icpp

/-- A machine address.  The C++ null pointer is 0. -/
abbrev Addr := Nat

/-- The value a resolver call returns: either a direct address (const
    void* value) or the address of the process-wide symbol cache slot for
    a name (the `&found->second` data indirection, stable per name because
    unordered_map nodes do not move). -/
inductive SymAddr where
  | direct (a : Addr)
  | slot (name : String)
  deriving DecidableEq, Repr

/-- One loaded interpreted-object module as the resolver sees it: its
    path, its handle address (the Object* used as a module handle), and
    its own exported-symbol lookup (Object::locateSymbol, declared in
    object.h). -/
structure IObjModule where
  path : String
  addr : Addr
  locateSym : String → Option Addr

/-- The fixed environment behind ModuleLoader: native symbol lookup
    (find_symbol: with some handle = module-scoped, with none =
    process-wide), native library loading (load_library), iobject module
    construction (create_object + init_library), the RuntimeLib symbol
    hash index (RuntimeLib::find, none when the returned path is empty),
    and the address of the process abort routine. -/
structure LoaderEnv where
  findSymbol : Option Addr → String → Option Addr
  loadLib : String → Option Addr
  createObject : String → Option IObjModule
  rtlibFind : String → Option String
  abortAddr : Addr

/-- The mutable state of the process-wide ModuleLoader singleton:
    the symbol cache syms_, the lazily-set boost latch of lookup, the
    iobject module list imods_, and the module handle map mhandles_. -/
structure LoaderState where
  syms : List (String × Addr)
  boost : Bool
  imods : List IObjModule
  mhandles : List (String × Addr)

/-- Lookup in the unordered_map symbol cache. -/
def symsFind (l : List (String × Addr)) (k : String) : Option Addr :=
  match l.find? (fun p => p.1 = k) with
  | some p => some p.2
  | none => none

/-- unordered_map::insert — a no-op when the key is already present. -/
def symsInsert (l : List (String × Addr)) (k : String) (v : Addr) :
    List (String × Addr) :=
  if (l.find? (fun p => p.1 = k)).isSome then l else l ++ [(k, v)]

/-- Lookup in the sorted module-handle map. -/
def mapFind (l : List (String × Addr)) (k : String) : Option Addr :=
  match l.find? (fun p => p.1 = k) with
  | some p => some p.2
  | none => none

/-- std::map::insert — keeps the list sorted by key and is a no-op when
    the key is already present. -/
def mapInsert : List (String × Addr) → String → Addr → List (String × Addr)
  | [], k, v => [(k, v)]
  | (k', v') :: rest, k, v =>
    if k = k' then (k', v') :: rest
    else if k < k' then (k, v) :: (k', v') :: rest
    else (k', v') :: mapInsert rest k v

/-- ModuleLoader::cacheObject: registering an iobject module is a no-op
    when its path is already a key of the module-handle map; otherwise the
    module is appended to imods_ and its (path, handle) pair inserted into
    mhandles_. -/
def cacheObject (s : LoaderState) (o : IObjModule) : LoaderState :=
  if (mapFind s.mhandles o.path).isSome then s
  else { s with
         imods := s.imods ++ [o],
         mhandles := mapInsert s.mhandles o.path o.addr }

/-- ModuleLoader::loadLibrary: return the cached handle if the path was
    loaded before; otherwise try the native loader, then (for .o/.io
    paths) construct an iobject module — whose init_library runs
    cacheObject — and finally record the handle in mhandles_.  (The
    re-check of mhandles_ after a failed native load finds nothing in
    this single-threaded model.) -/
def loadLibrary (env : LoaderEnv) (s : LoaderState) (path : String) :
    Option Addr × LoaderState :=
  match mapFind s.mhandles path with
  | some h => (some h, s)
  | none =>
    let res : Option Addr × LoaderState :=
      match env.loadLib path with
      | some a => (some a, s)
      | none =>
        if path.endsWith ".o" || path.endsWith ".io" then
          match env.createObject path with
          | some o => (some o.addr, cacheObject s o)
          | none => (none, s)
        else (none, s)
    match res with
    | (none, s1) => (none, s1)
    | (some a, s1) => (some a, { s1 with mhandles := mapInsert s1.mhandles path a })

/-- The search part of ModuleLoader::resolve(handle, name, data): the
    iobject modules whose handle matches (the loop skips modules with a
    different handle and keeps scanning while locateSymbol returns null),
    then native find_symbol against the handle. -/
def resolveTierH (env : LoaderEnv) (s : LoaderState) (handle : Option Addr)
    (name : String) : Option Addr :=
  match s.imods.findSome? fun io =>
      if some io.addr = handle then io.locateSym name else none with
  | some t => some t
  | none => env.findSymbol handle name

/-- ModuleLoader::resolve(handle, name, data): cache hit first (boxed for
    data lookups); then the module-scoped search tiers; a found target is
    memoized before returning, a miss returns nullptr. -/
def resolveHandle (env : LoaderEnv) (s : LoaderState) (handle : Option Addr)
    (name : String) (data : Bool) : Option SymAddr × LoaderState :=
  match symsFind s.syms name with
  | some v => (some (if data then .slot name else .direct v), s)
  | none =>
    match resolveTierH env s handle name with
    | none => (none, s)
    | some t =>
      (some (if data then .slot name else .direct t),
       { s with syms := symsInsert s.syms name t })

/-- The lazy-boost trigger of ModuleLoader::lookup:
    name.find("boost") != npos. -/
def containsBoost (name : String) : Bool :=
  (name.splitOn "boost").length != 1

/-- The boost lazy-load step at the head of ModuleLoader::lookup: on the
    first boost-named symbol it dlopens the boost native libraries (their
    symbols are part of env.findSymbol in this model) and flips the
    one-shot static latch. -/
def boostStep (s : LoaderState) (name : String) : LoaderState :=
  if !s.boost && containsBoost name then { s with boost := true } else s

/-- The first three tiers of ModuleLoader::lookup: the iobject modules;
    then the loaded-module handle loop — whose body reassigns target
    unconditionally, so with a nonempty handle map it overrides the
    iobject tier result; then, if still unresolved, the native
    process-wide table (find_symbol with a null handle). -/
def lookupTiers (env : LoaderEnv) (s : LoaderState) (name : String) :
    Option Addr :=
  match (match s.mhandles with
         | [] => s.imods.findSome? fun io => io.locateSym name
         | _ => s.mhandles.findSome? fun m => env.findSymbol (some m.2) name) with
  | some t => some t
  | none => env.findSymbol none name

/-- ModuleLoader::lookup — the global tiered search: the boost step, the
    three search tiers, then the symbol-hash index
    (RuntimeLib::inst().find) with a lazy module load and a scoped
    resolve, and finally the abort-address substitution.  Every outcome
    is memoized in syms_ before returning. -/
def lookup (env : LoaderEnv) (s : LoaderState) (name : String) (data : Bool) :
    SymAddr × LoaderState :=
  match lookupTiers env (boostStep s name) name with
  | some t =>
    (if data then .slot name else .direct t,
     { boostStep s name with
       syms := symsInsert (boostStep s name).syms name t })
  | none =>
    match env.rtlibFind name with
    | some path =>
      match loadLibrary env (boostStep s name) path with
      | (h, s1) =>
        match resolveHandle env s1 h name data with
        | (some r, s2) => (r, s2)
        | (none, s2) =>
          (if data then .slot name else .direct env.abortAddr,
           { s2 with syms := symsInsert s2.syms name env.abortAddr })
    | none =>
      (if data then .slot name else .direct env.abortAddr,
       { boostStep s name with
         syms := symsInsert (boostStep s name).syms name env.abortAddr })

/-- ModuleLoader::resolve(name, data) — the global resolver behind
    Loader::locateSymbol: answer from the cache, otherwise run lookup.
    The Bool records whether the tiered module search (lookup) ran. -/
def resolveGlobal (env : LoaderEnv) (s : LoaderState) (name : String)
    (data : Bool) : SymAddr × LoaderState × Bool :=
  match symsFind s.syms name with
  | some v => ((if data then .slot name else .direct v), s, false)
  | none =>
    let (r, s') := lookup env s name data
    (r, s', true)

/-! ## object-llvm.cpp: relocation pre-pass (reloc_symbols) -/

/-- The x86-64 ELF addend correction applied in reloc_symbols:
    `if (rsym.addend < -4) rsym.addend = 0; else rsym.addend += 4;`
    (rsym.addend is a C int carrying the Elf64 r_addend). -/
def correctedAddendX64 (addend : Int) : Int :=
  if addend < -4 then 0 else addend + 4

/-! ## object-llvm.cpp: instruction decode (Object::decodeInsns) -/

/-- The symbol kind a relocation record carries (reloc_symtype only ever
    returns SymbolRef::ST_Data or SymbolRef::ST_Function). -/
inductive SymKind where
  | data
  | func
  deriving DecidableEq, Repr

/-- One relocation record (RelocInfo in object.h): symbol name, resolved
    target, symbol kind. -/
structure RelocInfo where
  name : String
  target : SymAddr
  rtype : SymKind
  deriving DecidableEq, Repr

/-- The x86-64 arm of the relocation search in the decode loop:
    `for (int i = 1; i <= iinfo.len - 4; i++) found = rsyms.find(iinfo.rva + i)`
    over the pre-pass relocation map keys rsyms; iinfo.len is a
    sub-32-bit bitfield, so len - 4 is int arithmetic and the loop is
    empty for len < 5.  Returns the first searched offset i whose
    address rva + i carries a relocation entry. -/
def findRelocX64 (rsyms : List Nat) (rva len : Nat) : Option Nat :=
  (List.range' 1 (len - 4)).find? fun i => rsyms.contains (rva + i)

/-- Index of the first existing relocation record matching a (target,
    kind) pair — the linear scan
    `for (it = irelocs_.begin(); ...) if (rtaddr == it->target && symtype == it->type)`. -/
def firstMatchIndex : List RelocInfo → SymAddr → SymKind → Option Nat
  | [], _, _ => none
  | r :: rest, t, k =>
    if r.target = t ∧ r.rtype = k then some 0
    else (firstMatchIndex rest t k).map (· + 1)

/-- Result of binding one instruction's relocation: the updated record
    list and the index recorded into iinfo.reloc. -/
structure DedupResult where
  relocs : List RelocInfo
  index : Nat
  deriving DecidableEq, Repr

/-- The relocation deduplication step of Object::decodeInsns: scan
    irelocs_ for a record with the same (target, kind); on a hit reuse
    its index — and, when the instruction is a COFF AArch64
    IMAGE_REL_ARM64_PAGEOFFSET_12L relocation against an undefined symbol
    (fixup = true), overwrite the matched record in place with the
    data-kind target Loader::locateSymbol(name, true) (resolveData);
    on a miss append a fresh record and record its index. -/
def dedupStep (fixup : Bool) (resolveData : String → SymAddr)
    (relocs : List RelocInfo) (name : String) (rtaddr : SymAddr)
    (symtype : SymKind) : DedupResult :=
  match firstMatchIndex relocs rtaddr symtype with
  | some j =>
    if fixup then
      { relocs :=
          relocs.set j { (relocs.getD j ⟨name, rtaddr, symtype⟩) with
                         target := resolveData name, rtype := .data },
        index := j }
    else
      { relocs := relocs, index := j }
  | none =>
    { relocs := relocs ++ [⟨name, rtaddr, symtype⟩], index := relocs.length }

/-- How many records of a list carry a given (target, kind) pair. -/
def pairCount (relocs : List RelocInfo) (t : SymAddr) (k : SymKind) : Nat :=
  (relocs.filter fun r => r.target = t && r.rtype = k).length

/-! ## object-llvm.cpp: the decode loop and the instruction-info order -/

/-- The two supported architectures. -/
inductive Arch where
  | aarch64
  | x86_64
  deriving DecidableEq, Repr

/-- The decode-failure skip granularity: 4 bytes on AArch64, 1 on
    x86-64 (`int skipsz = arch_ == AArch64 ? 4 : 1`). -/
def skipSize : Arch → Nat
  | .aarch64 => 4
  | .x86_64 => 1

/-- Outcome of one MCDisassembler::getInstruction call. -/
inductive DecodeStatus where
  | fail
  | softFail
  | success
  deriving DecidableEq, Repr

/-- What the architecture decoder reports at one byte cursor: the status,
    the instruction size (for x86-64 prefix opcodes, already the merged
    prefix + instruction size), and the semantic type tag assigned by the
    classifier (parseInstAArch64 / parseInstX64). -/
structure Decoded where
  status : DecodeStatus
  size : Nat
  itype : Nat
  deriving DecidableEq, Repr

/-- The INSN_ABORT placeholder type tag. -/
def INSN_ABORT : Nat := 1

/-- One decoded instruction record (InsnInfo, object.h): offset in the
    text coordinate space, length, semantic type, relocation flag and
    relocation-record index. -/
structure InsnInfo where
  rva : Nat
  len : Nat
  itype : Nat
  rflag : Bool
  reloc : Nat
  deriving DecidableEq, Repr

/-- The length the decode loop advances by: skipSize on Fail, the size
    (or skipSize when zero) on SoftFail, the reported size on success. -/
def insnLen (arch : Arch) (d : Decoded) : Nat :=
  match d.status with
  | .fail => skipSize arch
  | .softFail => if d.size = 0 then skipSize arch else d.size
  | .success => d.size

/-- The type tag the decode loop records: INSN_ABORT on decode failure,
    the classifier's tag on success. -/
def insnType (d : Decoded) : Nat :=
  match d.status with
  | .fail => INSN_ABORT
  | .softFail => INSN_ABORT
  | .success => d.itype

/-- The decode loop of Object::decodeInsns restricted to the cursor /
    record-list dynamics: walk the text section from offset o to its
    size, appending one InsnInfo per step with rva = frva + o and
    advancing the cursor by the instruction length.  dec gives the
    decoder's outcome at each in-section offset.  The fuel argument
    bounds the iteration count; any fuel at least size reproduces the
    C++ loop whenever every emitted length is positive (a zero-length
    success would make the C++ loop spin forever as well). -/
def decodeLoop (arch : Arch) (dec : Nat → Decoded) (frva size : Nat) :
    Nat → Nat → List InsnInfo
  | 0, _ => []
  | fuel + 1, o =>
    if o < size then
      let d := dec o
      let len := insnLen arch d
      { rva := frva + o, len := len, itype := insnType d,
        rflag := false, reloc := 0 } :: decodeLoop arch dec frva size fuel (o + len)
    else []

/-- Modelled from the spec: InsnInfo's operator< (declared in object.h,
    which is not among the provided sources; only its callers are).  The
    spec's ordering invariant — instruction infos are kept strictly
    increasing by offset and binary search by any in-range address
    returns the record containing that address — requires the interval
    order on records: a record is below another exactly when it ends at
    or before the other's start. -/
def insnLt (a b : InsnInfo) : Bool :=
  a.rva + a.len ≤ b.rva

/-- std::lower_bound over the instruction-info list: the first element e
    for which insnLt e key is false (the C++ algorithm computes exactly
    this element on a partitioned range, by binary search). -/
def lowerBound (l : List InsnInfo) (key : InsnInfo) : Option InsnInfo :=
  l.find? fun e => !insnLt e key

/-- Object::insnInfo: binary-search the instruction-info list for the
    record of a query rva (the search key InsnInfo{.rva = rva} has all
    other fields zero); none models the log-and-abort branch taken when
    lower_bound reaches the end. -/
def insnInfoLookup (iinfs : List InsnInfo) (rva : Nat) : Option InsnInfo :=
  lowerBound iinfs { rva := rva, len := 0, itype := 0, rflag := false, reloc := 0 }

/-! ## base64 (boost::beast::detail::base64, used for operand-table keys) -/

/-- The base64 alphabet as ASCII codes: A-Z, a-z, 0-9, plus, slash — the
    table of the boost::beast encoder (an external library; modelled as
    standard padded base64). -/
def b64chars : List Nat :=
  [65, 66, 67, 68, 69, 70, 71, 72, 73, 74, 75, 76, 77,
   78, 79, 80, 81, 82, 83, 84, 85, 86, 87, 88, 89, 90,
   97, 98, 99, 100, 101, 102, 103, 104, 105, 106, 107, 108, 109,
   110, 111, 112, 113, 114, 115, 116, 117, 118, 119, 120, 121, 122,
   48, 49, 50, 51, 52, 53, 54, 55, 56, 57, 43, 47]

/-- A 6-bit group as its base64 character. -/
def b64char (v : Nat) : Nat := b64chars.getD v 0

/-- The decoder's inverse table: none for any character outside the
    alphabet (the pad character 61 included), where the beast decoder
    stops consuming. -/
def b64inv (c : Nat) : Option Nat := b64chars.findIdx? fun x => x = c

/-- base64-encode a byte string, 3 bytes to 4 characters, padding the
    tail with 61 (the pad character). -/
def b64encode : List Nat → List Nat
  | [] => []
  | [a] => [b64char (a / 4), b64char (a % 4 * 16), 61, 61]
  | [a, b] =>
    [b64char (a / 4), b64char (a % 4 * 16 + b / 16), b64char (b % 16 * 4), 61]
  | a :: b :: c :: rest =>
    b64char (a / 4) :: b64char (a % 4 * 16 + b / 16)
      :: b64char (b % 16 * 4 + c / 64) :: b64char (c % 64) :: b64encode rest

/-- base64-decode: translate through the inverse table, emitting 3 bytes
    per full 4-character group and 1 or 2 bytes for a final group cut
    short by padding or by the end of the input. -/
def b64decode : List Nat → List Nat
  | c1 :: c2 :: c3 :: c4 :: rest =>
    match b64inv c1, b64inv c2, b64inv c3, b64inv c4 with
    | some v1, some v2, some v3, some v4 =>
      (v1 * 4 + v2 / 16) :: (v2 % 16 * 16 + v3 / 4) :: (v3 % 4 * 64 + v4)
        :: b64decode rest
    | some v1, some v2, some v3, none =>
      [v1 * 4 + v2 / 16, v2 % 16 * 16 + v3 / 4]
    | some v1, some v2, none, _ => [v1 * 4 + v2 / 16]
    | _, _, _, _ => []
  | _ => []

/-! ## loader.cpp: InterpObject construction (cache load) -/

/-- A 32-bit little-endian read from a byte buffer — the magic and
    version field reads at the head of the InterpObject constructor. -/
def readU32 (file : List Nat) (off : Nat) : Nat :=
  file.getD off 0
    + 256 * (file.getD (off + 1) 0
    + 256 * (file.getD (off + 2) 0
    + 256 * file.getD (off + 3) 0))

/-- One entry of the serialized cross-module reference map irefsyms
    (iobj::SymbolList): in-text rvas for self references, or symbol names
    needing re-resolution against the keyed module. -/
structure SymbolList where
  rvas : List Nat
  names : List String
  deriving DecidableEq, Repr

/-- The parts of a parsed interpretable-object container the constructor
    consumes (protobuf parsing itself is the external protobuf
    library). -/
structure ParsedIObj where
  instinfos : List Nat
  instmetas : List (List Nat × List Nat)
  irefsyms : List (String × SymbolList)

/-- How InterpObject construction can end: an invalid object (failed
    read, wrong magic — not an iobj file, version mismatch, corrupted
    container), a process exit from the dependency loop (std::exit(-1)
    on a failed module load or an unresolved dependent symbol), or a
    constructed object with its rebuilt relocation list. -/
inductive IObjOutcome where
  | invalidMagic
  | invalidVersion
  | invalidCorrupt
  | exitModule (mod : String)
  | exitSymbol (name : String)
  | ok (s : LoaderState) (relocs : List (String × SymAddr))

/-- The C++ `if (!target)` test on a resolver result. -/
def isNullSym : SymAddr → Bool
  | .direct a => a == 0
  | .slot _ => false

/-- One dependent-symbol resolution in the InterpObject constructor:
    `loader.locate(s)` (module-scoped, data = false), falling back to
    `Loader::locateSymbol(s, false)` (global). -/
def resolveDep (env : LoaderEnv) (s : LoaderState) (handle : Option Addr)
    (name : String) : Option SymAddr × LoaderState :=
  match resolveHandle env s handle name false with
  | (some t, s1) => (some t, s1)
  | (none, s1) =>
    match resolveGlobal env s1 name false with
    | (r, s2, _) => (some r, s2)

/-- The per-name loop over one module's dependent symbols: resolve each
    name, exit (-1) if the result is still null, otherwise push a
    RelocInfo for it. -/
def interpSymbols (env : LoaderEnv) (handle : Option Addr) :
    LoaderState → List String → List (String × SymAddr) →
    Except String (List (String × SymAddr)) × LoaderState
  | s, [], acc => (.ok acc, s)
  | s, n :: rest, acc =>
    match resolveDep env s handle n with
    | (none, s1) => (.error n, s1)
    | (some t, s1) =>
      if isNullSym t then (.error n, s1)
      else interpSymbols env handle s1 rest (acc ++ [(n, t)])

/-- The relocation-rebuild loop of the InterpObject constructor over the
    deserialized irefsyms entries: an entry with rvas contributes self
    relocations at rva + textrva; any other entry names a dependent
    module — load it (exit (-1) if that fails) and resolve each listed
    symbol through resolveDep. -/
def interpRefs (env : LoaderEnv) (textrva : Nat) :
    LoaderState → List (String × SymbolList) → List (String × SymAddr) →
    IObjOutcome
  | s, [], acc => .ok s acc
  | s, (mod, sl) :: rest, acc =>
    if sl.rvas ≠ [] then
      interpRefs env textrva s rest
        (acc ++ sl.rvas.map fun rva => ("self", SymAddr.direct (rva + textrva)))
    else
      match loadLibrary env s mod with
      | (none, _) => .exitModule mod
      | (some h, s1) =>
        match interpSymbols env (some h) s1 sl.names [] with
        | (.error n, _) => .exitSymbol n
        | (.ok resolved, s2) => interpRefs env textrva s2 rest (acc ++ resolved)

/-- The InterpObject constructor: magic check, exact version check,
    container parse, then the relocation rebuild.  magicC and versionC
    stand for the build constants iobj_magic and version_value().value
    (declared in headers outside the provided sources; only their
    equality tests matter here). -/
def interpCtor (env : LoaderEnv) (s : LoaderState) (magicC versionC : Nat)
    (file : List Nat) (parse : List Nat → Option ParsedIObj) (textrva : Nat) :
    IObjOutcome :=
  if readU32 file 0 ≠ magicC then .invalidMagic
  else if readU32 file 4 ≠ versionC then .invalidVersion
  else
    match parse file with
    | none => .invalidCorrupt
    | some p => interpRefs env textrva s p.irefsyms []

/-- Well-formedness of the environment: no collaborator hands back the
    null pointer as a found address, and the abort routine has a real
    address.  (dlsym and Object::locateSymbol signal absence by returning
    null, never by returning a null hit.) -/
structure WFEnv (env : LoaderEnv) : Prop where
  abort_ne : env.abortAddr ≠ 0
  findSymbol_ne : ∀ h n, env.findSymbol h n ≠ some 0
  createObject_ne : ∀ p o, env.createObject p = some o →
    ∀ n, o.locateSym n ≠ some 0

/-- No cached symbol resolves to the null pointer. -/
def WFSyms (l : List (String × Addr)) : Prop := ∀ p ∈ l, p.2 ≠ 0

/-- No registered iobject module resolves a symbol to the null pointer. -/
def WFMods (l : List IObjModule) : Prop :=
  ∀ io ∈ l, ∀ n, io.locateSym n ≠ some 0

/-! ## loader.cpp: Object::generateCache — serialization of the
    interpretable-object container -/

/-- Modelled from the spec: the packed fixed-size 64-bit instruction
    record written per InsnInfo (`iins->Add(*reinterpret_cast<uint64_t*>(&i))`;
    the bitfield layout lives in object.h, which is not among the
    provided sources).  Field widths: rva 32 bits, len 8, type 8,
    relocation flag 1, relocation index 15. -/
def packInsn (i : InsnInfo) : Nat :=
  i.rva % 2 ^ 32
    + 2 ^ 32 * (i.len % 2 ^ 8)
    + 2 ^ 40 * (i.itype % 2 ^ 8)
    + 2 ^ 48 * (if i.rflag then 1 else 0)
    + 2 ^ 49 * (i.reloc % 2 ^ 15)

/-- The load-side reinterpretation of one packed 64-bit record
    (`iinfs_.push_back(*reinterpret_cast<InsnInfo*>(&i))`), inverse
    field extraction of packInsn. -/
def unpackInsn (n : Nat) : InsnInfo :=
  { rva := n % 2 ^ 32,
    len := n / 2 ^ 32 % 2 ^ 8,
    itype := n / 2 ^ 40 % 2 ^ 8,
    rflag := n / 2 ^ 48 % 2 = 1,
    reloc := n / 2 ^ 49 % 2 ^ 15 }

/-- generateCache: every operand-table key (raw instruction bytes) is
    base64-encoded before insertion into the serialized map — protobuf
    map keys must be real strings. -/
def saveMetas (metas : List (List Nat × List Nat)) :
    List (List Nat × List Nat) :=
  metas.map fun m => (b64encode m.1, m.2)

/-- InterpObject: every serialized key is base64-decoded on load. -/
def loadMetas (metas : List (List Nat × List Nat)) :
    List (List Nat × List Nat) :=
  metas.map fun m => (b64decode m.1, m.2)

/-- protobuf-map insertion of a self-reference rva under a key:
    `found->second.mutable_rvas()->Add(...)` after find-or-insert. -/
def addRva : List (String × SymbolList) → String → Nat →
    List (String × SymbolList)
  | [], k, rva => [(k, ⟨[rva], []⟩)]
  | (k', sl) :: rest, k, rva =>
    if k = k' then (k', ⟨sl.rvas ++ [rva], sl.names⟩) :: rest
    else (k', sl) :: addRva rest k rva

/-- protobuf-map insertion of an external symbol name under a module
    key: `found->second.mutable_names()->Add(...)` after
    find-or-insert. -/
def addName : List (String × SymbolList) → String → String →
    List (String × SymbolList)
  | [], k, n => [(k, ⟨[], [n]⟩)]
  | (k', sl) :: rest, k, n =>
    if k = k' then (k', ⟨sl.rvas, sl.names ++ [n]⟩) :: rest
    else (k', sl) :: addName rest k n

/-- The irefsyms-building loop of generateCache over the relocation
    records (name, target): a target in the object's own image (cover)
    — or one whose owning module cannot be located — is recorded under
    "self" as the in-text offset target - textvm_; any other target is
    recorded by symbol name under its owning module
    (Loader::locateModule). -/
def buildIRefs (cover : Nat → Bool) (locMod : Nat → String) (textvm : Nat) :
    List (String × SymbolList) → List (String × Nat) →
    List (String × SymbolList)
  | irefs, [] => irefs
  | irefs, (name, target) :: rest =>
    let mod := if cover target then "" else locMod target
    if mod ≠ "" then
      buildIRefs cover locMod textvm (addName irefs mod name) rest
    else
      buildIRefs cover locMod textvm (addRva irefs "self" (target - textvm)) rest

/-- The relocation list the InterpObject constructor rebuilds from the
    deserialized irefsyms map: an entry carrying rvas contributes self
    relocations at rva + textrva_; a named entry contributes one
    relocation per symbol name, re-resolved against that module — dep
    gives the address module-scoped load-time resolution produces (its
    loader plumbing is the subject of claims C1 and C9). -/
def rebuildRelocs (textrva : Nat) (dep : String → String → Nat)
    (irefs : List (String × SymbolList)) : List (String × Nat) :=
  irefs.flatMap fun e =>
    if e.2.rvas ≠ [] then e.2.rvas.map fun rva => ("self", rva + textrva)
    else e.2.names.map fun n => (n, dep e.1 n)

/-- The shape buildIRefs keeps its map in: the "self" entry holds only
    rvas, module entries hold only names (and are nonempty in the
    component they use). -/
def WFRefs (irefs : List (String × SymbolList)) : Prop :=
  ∀ e ∈ irefs, (e.1 = "self" → e.2.names = []) ∧ (e.1 ≠ "self" → e.2.rvas = [])

/-! ## Concrete instances used by the witnesses -/

/-- An environment in which no lookup tier knows any symbol and the abort
    routine lives at address 7. -/
def envNone : LoaderEnv :=
  { findSymbol := fun _ _ => none, loadLib := fun _ => none,
    createObject := fun _ => none, rtlibFind := fun _ => none,
    abortAddr := 7 }

/-- A fresh loader state: empty cache, unlatched boost step, no modules. -/
def stEmpty : LoaderState :=
  { syms := [], boost := false, imods := [], mhandles := [] }

/-- Two iobject modules sharing one path (with different handles and
    symbol tables, so a second registration would be observable). -/
def ioFirst : IObjModule :=
  { path := "m.io", addr := 10, locateSym := fun _ => none }

/-- See ioFirst. -/
def ioSecond : IObjModule :=
  { path := "m.io", addr := 11, locateSym := fun _ => none }

/-- Total byte length of a run of instruction records. -/
def sumLen (l : List InsnInfo) : Nat :=
  (l.map (fun i => i.len)).sum

/-- A run of instruction records tiling the address space from a start
    offset: each record starts where the previous one ended and has
    positive length — the shape the decode loop produces. -/
inductive Contig : Nat → List InsnInfo → Prop
  | nil (o : Nat) : Contig o []
  | cons (o : Nat) (i : InsnInfo) (rest : List InsnInfo)
      (hrva : i.rva = o) (hlen : 1 ≤ i.len)
      (hrest : Contig (o + i.len) rest) : Contig o (i :: rest)

/-! ## Supporting lemmas -/

theorem b64inv_b64char : ∀ v < 64, b64inv (b64char v) = some v := by decide

theorem b64inv_pad : b64inv 61 = none := by decide

/-- Decoding inverts encoding on byte strings — the operand-table keys
    survive the save/load cycle. -/
theorem b64_decode_encode : ∀ l : List Nat, (∀ b ∈ l, b < 256) →
    b64decode (b64encode l) = l
  | [], _ => rfl
  | [a], h => by
    have ha : a < 256 := h a (by simp)
    have h1 := b64inv_b64char (a / 4) (by omega)
    have h2 := b64inv_b64char (a % 4 * 16) (by omega)
    simp only [b64encode, b64decode, h1, h2, b64inv_pad]
    rw [show a / 4 * 4 + a % 4 * 16 / 16 = a by omega]
  | [a, b], h => by
    have ha : a < 256 := h a (by simp)
    have hb : b < 256 := h b (by simp)
    have h1 := b64inv_b64char (a / 4) (by omega)
    have h2 := b64inv_b64char (a % 4 * 16 + b / 16) (by omega)
    have h3 := b64inv_b64char (b % 16 * 4) (by omega)
    simp only [b64encode, b64decode, h1, h2, h3, b64inv_pad]
    rw [show a / 4 * 4 + (a % 4 * 16 + b / 16) / 16 = a by omega,
        show (a % 4 * 16 + b / 16) % 16 * 16 + b % 16 * 4 / 4 = b by omega]
  | a :: b :: c :: rest, h => by
    have ha : a < 256 := h a (by simp)
    have hb : b < 256 := h b (by simp)
    have hc : c < 256 := h c (by simp)
    have h1 := b64inv_b64char (a / 4) (by omega)
    have h2 := b64inv_b64char (a % 4 * 16 + b / 16) (by omega)
    have h3 := b64inv_b64char (b % 16 * 4 + c / 64) (by omega)
    have h4 := b64inv_b64char (c % 64) (by omega)
    have ih := b64_decode_encode rest (fun x hx => h x (by simp [hx]))
    simp only [b64encode, b64decode, h1, h2, h3, h4, ih]
    rw [show a / 4 * 4 + (a % 4 * 16 + b / 16) / 16 = a by omega,
        show (a % 4 * 16 + b / 16) % 16 * 16 + (b % 16 * 4 + c / 64) / 4 = b
          by omega,
        show (b % 16 * 4 + c / 64) % 4 * 64 + c % 64 = c by omega]

theorem unpackInsn_packInsn (i : InsnInfo) (h1 : i.rva < 2 ^ 32)
    (h2 : i.len < 2 ^ 8) (h3 : i.itype < 2 ^ 8) (h4 : i.reloc < 2 ^ 15) :
    unpackInsn (packInsn i) = i := by
  obtain ⟨rva, len, itype, rflag, reloc⟩ := i
  simp only at h1 h2 h3 h4
  unfold packInsn unpackInsn
  dsimp only
  rw [Nat.mod_eq_of_lt h1, Nat.mod_eq_of_lt h2, Nat.mod_eq_of_lt h3,
      Nat.mod_eq_of_lt h4]
  cases rflag with
  | false =>
    simp only [Bool.false_eq_true, if_false, InsnInfo.mk.injEq]
    refine ⟨by omega, by omega, by omega, ?_, by omega⟩
    simp only [decide_eq_false_iff_not]
    omega
  | true =>
    simp only [if_true, InsnInfo.mk.injEq]
    refine ⟨by omega, by omega, by omega, ?_, by omega⟩
    simp only [decide_eq_true_eq]
    omega

theorem loadMetas_saveMetas : ∀ metas : List (List Nat × List Nat),
    (∀ m ∈ metas, ∀ b ∈ m.1, b < 256) → loadMetas (saveMetas metas) = metas
  | [], _ => rfl
  | m :: rest, h => by
    have hm : ∀ b ∈ m.1, b < 256 := h m (by simp)
    have ih := loadMetas_saveMetas rest (fun x hx => h x (by simp [hx]))
    unfold saveMetas loadMetas at ih ⊢
    simp only [List.map_cons]
    rw [b64_decode_encode m.1 hm, ih]

theorem rebuild_addRva (textrva : Nat) (dep : String → String → Nat) :
    ∀ (irefs : List (String × SymbolList)) (rva : Nat), WFRefs irefs →
      List.Perm (rebuildRelocs textrva dep (addRva irefs "self" rva))
        (("self", rva + textrva) :: rebuildRelocs textrva dep irefs)
  | [], rva, _ => by
    simp [addRva, rebuildRelocs]
  | (k', sl) :: rest, rva, hwf => by
    by_cases hk : ("self" : String) = k'
    · subst hk
      have hnm : sl.names = [] := (hwf ("self", sl) (by simp)).1 rfl
      unfold addRva
      rw [if_pos rfl]
      unfold rebuildRelocs
      simp only [List.flatMap_cons]
      by_cases hrv : sl.rvas ≠ []
      · rw [if_pos (by simp), if_pos hrv]
        rw [List.map_append, List.append_assoc]
        simp only [List.map_cons, List.map_nil, List.singleton_append]
        exact List.perm_middle
      · rw [if_pos (by simp), if_neg hrv]
        rw [not_not.mp hrv, hnm]
        simp only [List.map_nil, List.nil_append, List.map_cons,
          List.map_nil, List.cons_append, List.nil_append]
        exact List.Perm.refl _
    · have hwfrest : WFRefs rest := fun e he => hwf e (by simp [he])
      have ih := rebuild_addRva textrva dep rest rva hwfrest
      unfold addRva
      rw [if_neg hk]
      unfold rebuildRelocs
      simp only [List.flatMap_cons]
      unfold rebuildRelocs at ih
      refine ((ih.append_left _).trans ?_)
      exact List.perm_middle

theorem rebuild_addName (textrva : Nat) (dep : String → String → Nat)
    (k : String) (hks : k ≠ "self") :
    ∀ (irefs : List (String × SymbolList)) (n : String), WFRefs irefs →
      List.Perm (rebuildRelocs textrva dep (addName irefs k n))
        ((n, dep k n) :: rebuildRelocs textrva dep irefs)
  | [], n, _ => by
    simp [addName, rebuildRelocs]
  | (k', sl) :: rest, n, hwf => by
    by_cases hk : k = k'
    · subst hk
      have hrv : sl.rvas = [] := (hwf (k, sl) (by simp)).2 hks
      unfold addName
      rw [if_pos rfl]
      unfold rebuildRelocs
      simp only [List.flatMap_cons]
      rw [if_neg (by simp [hrv]), if_neg (by simp [hrv])]
      rw [List.map_append, List.append_assoc]
      simp only [List.map_cons, List.map_nil, List.singleton_append]
      exact List.perm_middle
    · have hwfrest : WFRefs rest := fun e he => hwf e (by simp [he])
      have ih := rebuild_addName textrva dep k hks rest n hwfrest
      unfold addName
      rw [if_neg hk]
      unfold rebuildRelocs
      simp only [List.flatMap_cons]
      unfold rebuildRelocs at ih
      refine ((ih.append_left _).trans ?_)
      exact List.perm_middle

theorem WFRefs_addRva : ∀ (irefs : List (String × SymbolList)) (rva : Nat),
    WFRefs irefs → WFRefs (addRva irefs "self" rva)
  | [], rva, _ => by
    intro e he
    simp only [addRva, List.mem_singleton] at he
    subst he
    exact ⟨fun _ => rfl, fun h => absurd rfl h⟩
  | (k', sl) :: rest, rva, hwf => by
    intro e he
    unfold addRva at he
    by_cases hk : ("self" : String) = k'
    · rw [if_pos hk] at he
      rcases List.mem_cons.mp he with heq | hmem
      · subst heq
        have hold := hwf (k', sl) (by simp)
        exact ⟨fun _ => hold.1 hk.symm, fun h => absurd hk.symm h⟩
      · exact hwf e (by simp [hmem])
    · rw [if_neg hk] at he
      rcases List.mem_cons.mp he with heq | hmem
      · subst heq
        exact hwf (k', sl) (by simp)
      · exact WFRefs_addRva rest rva (fun x hx => hwf x (by simp [hx])) e hmem

theorem WFRefs_addName (k : String) (hks : k ≠ "self") :
    ∀ (irefs : List (String × SymbolList)) (n : String),
      WFRefs irefs → WFRefs (addName irefs k n)
  | [], n, _ => by
    intro e he
    simp only [addName, List.mem_singleton] at he
    subst he
    exact ⟨fun h => absurd h hks, fun _ => rfl⟩
  | (k', sl) :: rest, n, hwf => by
    intro e he
    unfold addName at he
    by_cases hk : k = k'
    · rw [if_pos hk] at he
      rcases List.mem_cons.mp he with heq | hmem
      · subst heq
        subst hk
        have hold := hwf (k, sl) (by simp)
        exact ⟨fun h => absurd h hks, fun h => hold.2 h⟩
      · exact hwf e (by simp [hmem])
    · rw [if_neg hk] at he
      rcases List.mem_cons.mp he with heq | hmem
      · subst heq
        exact hwf (k', sl) (by simp)
      · exact WFRefs_addName k hks rest n (fun x hx => hwf x (by simp [hx])) e hmem

theorem map_unpack_pack : ∀ l : List InsnInfo,
    (∀ i ∈ l,
      i.rva < 2 ^ 32 ∧ i.len < 2 ^ 8 ∧ i.itype < 2 ^ 8 ∧ i.reloc < 2 ^ 15) →
    (l.map packInsn).map unpackInsn = l
  | [], _ => rfl
  | i :: rest, h => by
    obtain ⟨a, b, c, d⟩ := h i (by simp)
    have ih := map_unpack_pack rest (fun x hx => h x (by simp [hx]))
    simp only [List.map_cons, List.cons.injEq]
    exact ⟨unpackInsn_packInsn i a b c d, ih⟩

theorem rebuild_buildIRefs (cover : Nat → Bool) (locMod : Nat → String)
    (textvm textrva : Nat) (dep : String → String → Nat) :
    ∀ (irelocs : List (String × Nat)) (irefs : List (String × SymbolList)),
      WFRefs irefs →
      (∀ r ∈ irelocs, cover r.2 = false →
        locMod r.2 ≠ "" ∧ locMod r.2 ≠ "self") →
      List.Perm
        (rebuildRelocs textrva dep (buildIRefs cover locMod textvm irefs irelocs))
        (rebuildRelocs textrva dep irefs
          ++ irelocs.map (fun r =>
              if cover r.2 then ("self", r.2 - textvm + textrva)
              else (r.1, dep (locMod r.2) r.1)))
  | [], irefs, hwf, _ => by
    simp [buildIRefs]
  | (name, target) :: rest, irefs, hwf, hrel => by
    unfold buildIRefs
    rcases hcv : cover target with _ | _
    · -- not covered: recorded under its module by name
      obtain ⟨hne, hns⟩ := hrel (name, target) (by simp) hcv
      simp only [Bool.false_eq_true, if_false]
      rw [if_pos hne]
      have ih := rebuild_buildIRefs cover locMod textvm textrva dep rest
        (addName irefs (locMod target) name)
        (WFRefs_addName (locMod target) hns irefs name hwf)
        (fun r hr => hrel r (by simp [hr]))
      refine ih.trans ?_
      have hadd := rebuild_addName textrva dep (locMod target) hns irefs name hwf
      refine (hadd.append_right _).trans ?_
      simp only [List.map_cons, hcv, Bool.false_eq_true, if_false,
        List.cons_append]
      exact (List.perm_middle).symm
    · -- covered by the object: recorded as a self offset
      simp only [if_true]
      rw [if_neg (by simp)]
      have ih := rebuild_buildIRefs cover locMod textvm textrva dep rest
        (addRva irefs "self" (target - textvm))
        (WFRefs_addRva irefs (target - textvm) hwf)
        (fun r hr => hrel r (by simp [hr]))
      refine ih.trans ?_
      have hadd := rebuild_addRva textrva dep irefs (target - textvm) hwf
      refine (hadd.append_right _).trans ?_
      simp only [List.map_cons, hcv, if_true, List.cons_append]
      exact (List.perm_middle).symm

theorem decodeLoop_contig (arch : Arch) (dec : Nat → Decoded)
    (frva size : Nat) (hlen : ∀ o, 1 ≤ insnLen arch (dec o)) :
    ∀ fuel o, Contig (frva + o) (decodeLoop arch dec frva size fuel o) := by
  intro fuel
  induction fuel with
  | zero => intro o; exact Contig.nil _
  | succ fuel ih =>
    intro o
    unfold decodeLoop
    by_cases h : o < size
    · rw [if_pos h]
      refine Contig.cons _ _ _ rfl (hlen o) ?_
      have h2 := ih (o + insnLen arch (dec o))
      rw [← Nat.add_assoc] at h2
      exact h2
    · rw [if_neg h]
      exact Contig.nil _

theorem contig_mem_lb {o : Nat} {l : List InsnInfo} (h : Contig o l) :
    ∀ x ∈ l, o ≤ x.rva := by
  induction h with
  | nil => intro x hx; cases hx
  | cons o i rest hrva hlen hrest ih =>
    intro x hx
    rcases List.mem_cons.mp hx with rfl | hx
    · omega
    · have := ih x hx
      omega

theorem contig_pairwise {o : Nat} {l : List InsnInfo} (h : Contig o l) :
    l.Pairwise (fun a b => a.rva < b.rva) := by
  induction h with
  | nil => exact List.Pairwise.nil
  | cons o i rest hrva hlen hrest ih =>
    refine List.Pairwise.cons ?_ ih
    intro b hb
    have := contig_mem_lb hrest b hb
    omega

theorem contig_lookup {o : Nat} {l : List InsnInfo} (h : Contig o l) :
    ∀ q, o ≤ q → q < o + sumLen l →
      ∃ r, insnInfoLookup l q = some r ∧ r.rva ≤ q ∧ q < r.rva + r.len := by
  induction h with
  | nil =>
    intro q h1 h2
    simp [sumLen] at h2
    omega
  | cons o i rest hrva hlen hrest ih =>
    intro q h1 h2
    have hsum : sumLen (i :: rest) = i.len + sumLen rest := by
      simp [sumLen]
    by_cases hq : q < o + i.len
    · refine ⟨i, ?_, by omega, by omega⟩
      unfold insnInfoLookup lowerBound
      rw [List.find?_cons_of_pos]
      simp only [insnLt, Bool.not_eq_true', decide_eq_false_iff_not, not_le]
      omega
    · obtain ⟨r, hr, hr1, hr2⟩ := ih q (by omega) (by omega)
      refine ⟨r, ?_, hr1, hr2⟩
      unfold insnInfoLookup lowerBound at hr ⊢
      rw [List.find?_cons_of_neg]
      · exact hr
      · simp only [insnLt, Bool.not_eq_true', Bool.not_eq_false,
          decide_eq_true_eq]
        omega

theorem contig_unique {o : Nat} {l : List InsnInfo} (h : Contig o l) :
    ∀ q r r', r ∈ l → r' ∈ l →
      r.rva ≤ q → q < r.rva + r.len → r'.rva ≤ q → q < r'.rva + r'.len →
      r = r' := by
  induction h with
  | nil => intro q r r' hr; cases hr
  | cons o i rest hrva hlen hrest ih =>
    intro q r r' hr hr' h1 h2 h3 h4
    rcases List.mem_cons.mp hr with rfl | hm
    · rcases List.mem_cons.mp hr' with rfl | hm'
      · rfl
      · have := contig_mem_lb hrest r' hm'
        omega
    · rcases List.mem_cons.mp hr' with rfl | hm'
      · have := contig_mem_lb hrest r hm
        omega
      · exact ih q r r' hm hm' h1 h2 h3 h4

theorem symsFind_symsInsert_self (l : List (String × Addr)) (k : String)
    (v : Addr) :
    symsFind (symsInsert l k v) k = some ((symsFind l k).getD v) := by
  unfold symsInsert
  by_cases h : (l.find? (fun p => p.1 = k)).isSome
  · obtain ⟨p, hp⟩ := Option.isSome_iff_exists.mp h
    simp only [h, if_true]
    simp [symsFind, hp]
  · have hn : l.find? (fun p => p.1 = k) = none :=
      Option.not_isSome_iff_eq_none.mp h
    simp only [h, if_false]
    have hsf : symsFind l k = none := by simp [symsFind, hn]
    simp [symsFind, List.find?_append, hn, hsf]

theorem symsFind_symsInsert_of_none (l : List (String × Addr)) (k : String)
    (v : Addr) (h : symsFind l k = none) :
    symsFind (symsInsert l k v) k = some v := by
  rw [symsFind_symsInsert_self, h]
  rfl

theorem loadLibrary_syms (env : LoaderEnv) (s : LoaderState) (path : String) :
    (loadLibrary env s path).2.syms = s.syms := by
  unfold loadLibrary cacheObject
  rcases mapFind s.mhandles path with _ | h
  · rcases env.loadLib path with _ | a
    · by_cases he : path.endsWith ".o" || path.endsWith ".io"
      · simp only [he, if_true]
        rcases env.createObject path with _ | o
        · simp
        · by_cases hm : (mapFind s.mhandles o.path).isSome <;> simp [hm]
      · simp [he]
    · simp
  · simp

theorem mapFind_mapInsert_self (l : List (String × Addr)) (k : String)
    (v : Addr) : (mapFind (mapInsert l k v) k).isSome := by
  induction l with
  | nil => simp [mapInsert, mapFind, List.find?]
  | cons p rest ih =>
    obtain ⟨k', v'⟩ := p
    by_cases h1 : k = k'
    · subst h1
      simp [mapInsert, mapFind, List.find?]
    · by_cases h2 : k < k'
      · simp [mapInsert, h1, h2, mapFind, List.find?]
      · have h3 : ¬(((k', v') : String × Addr).1 = k) := fun h => h1 h.symm
        simp only [mapInsert, h1, if_false, h2]
        unfold mapFind at ih ⊢
        rw [List.find?_cons_of_neg _ (by simpa using h3)]
        exact ih

theorem firstMatchIndex_eq_none_iff {relocs : List RelocInfo} {t : SymAddr}
    {k : SymKind} :
    firstMatchIndex relocs t k = none
      ↔ ∀ r ∈ relocs, ¬(r.target = t ∧ r.rtype = k) := by
  induction relocs with
  | nil => simp [firstMatchIndex]
  | cons r rest ih =>
    by_cases hr : r.target = t ∧ r.rtype = k
    · simp [firstMatchIndex, hr]
    · simp only [firstMatchIndex, hr, if_false, Option.map_eq_none', ih,
        List.mem_cons]
      constructor
      · rintro h x (rfl | hx)
        · exact hr
        · exact h x hx
      · intro h x hx
        exact h x (Or.inr hx)

theorem firstMatchIndex_none {relocs : List RelocInfo} {t : SymAddr}
    {k : SymKind} (h : ∀ r ∈ relocs, ¬(r.target = t ∧ r.rtype = k)) :
    firstMatchIndex relocs t k = none :=
  firstMatchIndex_eq_none_iff.mpr h

theorem firstMatchIndex_spec {relocs : List RelocInfo} {t : SymAddr}
    {k : SymKind} {j : Nat} (h : firstMatchIndex relocs t k = some j) :
    ∃ hj : j < relocs.length,
      (relocs.get ⟨j, hj⟩).target = t ∧ (relocs.get ⟨j, hj⟩).rtype = k := by
  induction relocs generalizing j with
  | nil => simp [firstMatchIndex] at h
  | cons r rest ih =>
    by_cases hr : r.target = t ∧ r.rtype = k
    · simp only [firstMatchIndex] at h
      rw [if_pos hr] at h
      injection h with h
      subst h
      exact ⟨by simp, hr.1, hr.2⟩
    · simp only [firstMatchIndex] at h
      rw [if_neg hr, Option.map_eq_some'] at h
      obtain ⟨j', hj', rfl⟩ := h
      obtain ⟨hlt, hg1, hg2⟩ := ih hj'
      exact ⟨Nat.succ_lt_succ hlt, hg1, hg2⟩

theorem pairCount_append (l : List RelocInfo) (r : RelocInfo) (t : SymAddr)
    (k : SymKind) :
    pairCount (l ++ [r]) t k
      = pairCount l t k + (if r.target = t ∧ r.rtype = k then 1 else 0) := by
  unfold pairCount
  rw [List.filter_append, List.length_append]
  congr 1
  rw [List.filter_singleton]
  by_cases h : r.target = t ∧ r.rtype = k
  · rw [show (decide (r.target = t) && decide (r.rtype = k)) = true by
        simp [h.1, h.2], if_pos h]
    rfl
  · have h1 : ¬(decide (r.target = t) && decide (r.rtype = k)) = true := by
      simpa using h
    rw [Bool.not_eq_true] at h1
    rw [h1, if_neg h]
    rfl

theorem pairCount_eq_zero {relocs : List RelocInfo} {t : SymAddr} {k : SymKind}
    (h : ∀ r ∈ relocs, ¬(r.target = t ∧ r.rtype = k)) :
    pairCount relocs t k = 0 := by
  unfold pairCount
  rw [List.length_eq_zero, List.filter_eq_nil_iff]
  intro r hr
  simp only [Bool.and_eq_true, decide_eq_true_eq, not_and]
  intro h1 h2
  exact h r hr ⟨h1, h2⟩

theorem boostStep_syms (s : LoaderState) (name : String) :
    (boostStep s name).syms = s.syms := by
  unfold boostStep
  split <;> rfl

theorem boostStep_imods (s : LoaderState) (name : String) :
    (boostStep s name).imods = s.imods := by
  unfold boostStep
  split <;> rfl

theorem boostStep_mhandles (s : LoaderState) (name : String) :
    (boostStep s name).mhandles = s.mhandles := by
  unfold boostStep
  split <;> rfl

theorem resolveHandle_some {env : LoaderEnv} {s : LoaderState}
    {handle : Option Addr} {name : String} {data : Bool} {r : SymAddr}
    {s2 : LoaderState} (hmiss : symsFind s.syms name = none)
    (hr : resolveHandle env s handle name data = (some r, s2)) :
    ∃ t, symsFind s2.syms name = some t ∧
      r = if data then SymAddr.slot name else .direct t := by
  unfold resolveHandle at hr
  rw [hmiss] at hr
  rcases htg : resolveTierH env s handle name with _ | t
  · rw [htg] at hr
    simp at hr
  · rw [htg] at hr
    simp only [Prod.mk.injEq, Option.some.injEq] at hr
    obtain ⟨hr1, hr2⟩ := hr
    refine ⟨t, ?_, hr1.symm⟩
    rw [← hr2]
    exact symsFind_symsInsert_of_none _ _ _ hmiss

theorem resolveHandle_none {env : LoaderEnv} {s : LoaderState}
    {handle : Option Addr} {name : String} {data : Bool} {s2 : LoaderState}
    (hmiss : symsFind s.syms name = none)
    (hr : resolveHandle env s handle name data = (none, s2)) : s2 = s := by
  unfold resolveHandle at hr
  rw [hmiss] at hr
  rcases htg : resolveTierH env s handle name with _ | t
  · rw [htg] at hr
    simp only [Prod.mk.injEq] at hr
    exact hr.2.symm
  · rw [htg] at hr
    simp at hr

/-- Every path through lookup memoizes a target for the name before
    returning, and returns exactly that target (boxed as the cache-slot
    address for data lookups). -/
theorem lookup_caches (env : LoaderEnv) (s : LoaderState) (name : String)
    (data : Bool) (h : symsFind s.syms name = none) :
    ∃ t, symsFind (lookup env s name data).2.syms name = some t ∧
      (lookup env s name data).1
        = if data then SymAddr.slot name else .direct t := by
  unfold lookup
  have h0 : symsFind (boostStep s name).syms name = none := by
    rw [boostStep_syms]; exact h
  rcases hti : lookupTiers env (boostStep s name) name with _ | t
  · rcases hrt : env.rtlibFind name with _ | path
    · simp only [hti, hrt]
      exact ⟨env.abortAddr, symsFind_symsInsert_of_none _ _ _ h0, rfl⟩
    · simp only [hti, hrt]
      rcases hl : loadLibrary env (boostStep s name) path with ⟨hopt, s1⟩
      have h1 : symsFind s1.syms name = none := by
        have hsy := loadLibrary_syms env (boostStep s name) path
        rw [hl] at hsy
        dsimp only at hsy
        rw [hsy]
        exact h0
      rcases hrh : resolveHandle env s1 hopt name data with ⟨ropt, s2⟩
      rcases ropt with _ | r
      · have hs2 : s2 = s1 := resolveHandle_none h1 hrh
        simp only [hl, hrh]
        exact ⟨env.abortAddr,
          symsFind_symsInsert_of_none _ _ _ (hs2 ▸ h1), rfl⟩
      · obtain ⟨t, ht, hr⟩ := resolveHandle_some h1 hrh
        simp only [hl, hrh]
        exact ⟨t, ht, hr⟩
  · simp only [hti]
    exact ⟨t, symsFind_symsInsert_of_none _ _ _ h0, rfl⟩

theorem symsFind_ne_zero {l : List (String × Addr)} (hwf : WFSyms l)
    {k : String} {v : Addr} (h : symsFind l k = some v) : v ≠ 0 := by
  unfold symsFind at h
  rcases hf : l.find? (fun p => p.1 = k) with _ | p
  · rw [hf] at h
    cases h
  · rw [hf] at h
    injection h with h
    subst h
    exact hwf p (List.mem_of_find?_eq_some hf)

theorem WFSyms_insert {l : List (String × Addr)} (hwf : WFSyms l) {k : String}
    {v : Addr} (hv : v ≠ 0) : WFSyms (symsInsert l k v) := by
  unfold symsInsert
  split
  · exact hwf
  · intro p hp
    rcases List.mem_append.mp hp with h | h
    · exact hwf p h
    · simp only [List.mem_singleton] at h
      rw [h]
      exact hv

theorem lookupTiers_ne_zero {env : LoaderEnv} {s : LoaderState} {name : String}
    {t : Addr} (hwfe : WFEnv env) (hm : WFMods s.imods)
    (h : lookupTiers env s name = some t) : t ≠ 0 := by
  unfold lookupTiers at h
  rcases hmh : s.mhandles with _ | ⟨p, rest⟩ <;> rw [hmh] at h
  · rcases hio : s.imods.findSome? (fun io => io.locateSym name) with _ | t0
    · rw [hio] at h
      intro h0
      subst h0
      exact hwfe.findSymbol_ne none name h
    · rw [hio] at h
      injection h with h
      subst h
      obtain ⟨io, hmem, hloc⟩ := List.exists_of_findSome?_eq_some hio
      intro h0
      subst h0
      exact hm io hmem name hloc
  · rcases hfs : (p :: rest).findSome?
        (fun m => env.findSymbol (some m.2) name) with _ | t0
    · rw [hfs] at h
      intro h0
      subst h0
      exact hwfe.findSymbol_ne none name h
    · rw [hfs] at h
      injection h with h
      subst h
      obtain ⟨m, _, hloc⟩ := List.exists_of_findSome?_eq_some hfs
      intro h0
      subst h0
      exact hwfe.findSymbol_ne (some m.2) name hloc

theorem resolveTierH_ne_zero {env : LoaderEnv} {s : LoaderState}
    {handle : Option Addr} {name : String} {t : Addr} (hwfe : WFEnv env)
    (hm : WFMods s.imods) (h : resolveTierH env s handle name = some t) :
    t ≠ 0 := by
  unfold resolveTierH at h
  rcases hio : s.imods.findSome? (fun io =>
      if some io.addr = handle then io.locateSym name else none) with _ | t0
  · rw [hio] at h
    intro h0
    subst h0
    exact hwfe.findSymbol_ne handle name h
  · rw [hio] at h
    injection h with h
    subst h
    obtain ⟨io, hmem, hloc⟩ := List.exists_of_findSome?_eq_some hio
    intro h0
    subst h0
    by_cases hcond : some io.addr = handle
    · rw [if_pos hcond] at hloc
      exact hm io hmem name hloc
    · rw [if_neg hcond] at hloc
      cases hloc

theorem resolveHandle_state {env : LoaderEnv} {s : LoaderState}
    {handle : Option Addr} {name : String} {data : Bool} {r : Option SymAddr}
    {s2 : LoaderState} (h : resolveHandle env s handle name data = (r, s2)) :
    (s2 = s ∨ ∃ t, t ≠ 0 → s2.syms = symsInsert s.syms name t) ∧
    s2.imods = s.imods ∧ s2.mhandles = s.mhandles := by
  unfold resolveHandle at h
  rcases hc : symsFind s.syms name with _ | v <;> rw [hc] at h
  · rcases ht : resolveTierH env s handle name with _ | t <;> rw [ht] at h
    · simp only [Prod.mk.injEq] at h
      rw [← h.2]
      exact ⟨Or.inl rfl, rfl, rfl⟩
    · simp only [Prod.mk.injEq] at h
      rw [← h.2]
      exact ⟨Or.inr ⟨t, fun _ => rfl⟩, rfl, rfl⟩
  · simp only [Prod.mk.injEq] at h
    rw [← h.2]
    exact ⟨Or.inl rfl, rfl, rfl⟩

theorem resolveHandle_wf {env : LoaderEnv} {s : LoaderState}
    {handle : Option Addr} {name : String} {data : Bool} {r : Option SymAddr}
    {s2 : LoaderState} (hwfe : WFEnv env) (hs : WFSyms s.syms)
    (hm : WFMods s.imods)
    (h : resolveHandle env s handle name data = (r, s2)) :
    WFSyms s2.syms ∧ s2.imods = s.imods ∧
      (∀ t, r = some (.direct t) → t ≠ 0) := by
  unfold resolveHandle at h
  rcases hc : symsFind s.syms name with _ | v <;> rw [hc] at h
  · rcases ht : resolveTierH env s handle name with _ | t <;> rw [ht] at h
    · simp only [Prod.mk.injEq] at h
      rw [← h.2]
      refine ⟨hs, rfl, ?_⟩
      intro t hr
      rw [← h.1] at hr
      cases hr
    · have htne : t ≠ 0 := resolveTierH_ne_zero hwfe hm ht
      simp only [Prod.mk.injEq] at h
      rw [← h.2]
      refine ⟨WFSyms_insert hs htne, rfl, ?_⟩
      intro t' hr
      rw [← h.1] at hr
      injection hr with hr
      rcases hd : data with _ | _ <;> rw [hd] at hr <;> simp at hr
      · rw [← hr]
        exact htne
  · have hvne : v ≠ 0 := symsFind_ne_zero hs hc
    simp only [Prod.mk.injEq] at h
    rw [← h.2]
    refine ⟨hs, rfl, ?_⟩
    intro t hr
    rw [← h.1] at hr
    injection hr with hr
    rcases hd : data with _ | _ <;> rw [hd] at hr <;> simp at hr
    · rw [← hr]
      exact hvne

theorem resolveHandle_none_state {env : LoaderEnv} {s : LoaderState}
    {handle : Option Addr} {name : String} {data : Bool} {s2 : LoaderState}
    (h : resolveHandle env s handle name data = (none, s2)) : s2 = s := by
  unfold resolveHandle at h
  rcases hc : symsFind s.syms name with _ | v <;> rw [hc] at h
  · rcases ht : resolveTierH env s handle name with _ | t <;> rw [ht] at h
    · simp only [Prod.mk.injEq] at h
      exact h.2.symm
    · simp at h
  · simp at h

theorem loadLibrary_wf {env : LoaderEnv} {s : LoaderState} {path : String}
    {h1 : Option Addr} {s1 : LoaderState} (hwfe : WFEnv env)
    (hs : WFSyms s.syms) (hm : WFMods s.imods)
    (h : loadLibrary env s path = (h1, s1)) :
    WFSyms s1.syms ∧ WFMods s1.imods := by
  unfold loadLibrary at h
  rcases hc : mapFind s.mhandles path with _ | hh <;> rw [hc] at h
  · rcases hl : env.loadLib path with _ | a <;> rw [hl] at h
    · by_cases he : (path.endsWith ".o" || path.endsWith ".io") = true
      · rw [if_pos he] at h
        rcases ho : env.createObject path with _ | o <;> rw [ho] at h
        · simp only [Prod.mk.injEq] at h
          rw [← h.2]
          exact ⟨hs, hm⟩
        · have hwfo : ∀ n, o.locateSym n ≠ some 0 :=
            hwfe.createObject_ne path o ho
          simp only [Prod.mk.injEq] at h
          rw [← h.2]
          unfold cacheObject
          split
          · exact ⟨hs, hm⟩
          · refine ⟨hs, ?_⟩
            intro io hio n
            rcases List.mem_append.mp hio with hx | hx
            · exact hm io hx n
            · simp only [List.mem_singleton] at hx
              rw [hx]
              exact hwfo n
      · rw [if_neg he] at h
        simp only [Prod.mk.injEq] at h
        rw [← h.2]
        exact ⟨hs, hm⟩
    · simp only [Prod.mk.injEq] at h
      rw [← h.2]
      exact ⟨hs, hm⟩
  · simp only [Prod.mk.injEq] at h
    rw [← h.2]
    exact ⟨hs, hm⟩

theorem lookup_wf {env : LoaderEnv} {s : LoaderState} {name : String}
    {data : Bool} (hwfe : WFEnv env) (hs : WFSyms s.syms)
    (hm : WFMods s.imods) :
    WFSyms (lookup env s name data).2.syms ∧
    WFMods (lookup env s name data).2.imods ∧
    (∀ t, (lookup env s name data).1 = .direct t → t ≠ 0) := by
  have hbs : WFSyms (boostStep s name).syms := by
    rw [boostStep_syms]
    exact hs
  have hbm : WFMods (boostStep s name).imods := by
    rw [boostStep_imods]
    exact hm
  unfold lookup
  rcases hti : lookupTiers env (boostStep s name) name with _ | t
  · rcases hrt : env.rtlibFind name with _ | path
    · refine ⟨WFSyms_insert hbs hwfe.abort_ne, hbm, ?_⟩
      intro t hr
      rcases hd : data with _ | _ <;> rw [hd] at hr <;> simp at hr
      · rw [← hr]
        exact hwfe.abort_ne
    · rcases hl : loadLibrary env (boostStep s name) path with ⟨hopt, s1⟩
      obtain ⟨hs1, hm1⟩ := loadLibrary_wf hwfe hbs hbm hl
      rcases hrh : resolveHandle env s1 hopt name data with ⟨ropt, s2⟩
      obtain ⟨hs2, him2, hr2⟩ := resolveHandle_wf hwfe hs1 hm1 hrh
      have hm2 : WFMods s2.imods := by
        rw [him2]
        exact hm1
      rcases hro : ropt with _ | r
      · rw [hro] at hrh
        simp only [hl, hrh]
        refine ⟨WFSyms_insert hs2 hwfe.abort_ne, hm2, ?_⟩
        intro t hr
        rcases hd : data with _ | _ <;> rw [hd] at hr <;> simp at hr
        · rw [← hr]
          exact hwfe.abort_ne
      · rw [hro] at hrh
        simp only [hl, hrh]
        refine ⟨hs2, hm2, ?_⟩
        intro t hr
        exact hr2 t (by rw [hro, hr])
  · have htne : t ≠ 0 := lookupTiers_ne_zero hwfe hbm hti
    refine ⟨WFSyms_insert hbs htne, hbm, ?_⟩
    intro t' hr
    rcases hd : data with _ | _ <;> rw [hd] at hr <;> simp at hr
    · rw [← hr]
      exact htne

theorem resolveGlobal_wf {env : LoaderEnv} {s : LoaderState} {name : String}
    {data : Bool} (hwfe : WFEnv env) (hs : WFSyms s.syms)
    (hm : WFMods s.imods) :
    WFSyms (resolveGlobal env s name data).2.1.syms ∧
    WFMods (resolveGlobal env s name data).2.1.imods ∧
    (∀ t, (resolveGlobal env s name data).1 = .direct t → t ≠ 0) := by
  unfold resolveGlobal
  rcases hc : symsFind s.syms name with _ | v
  · rcases hlk : lookup env s name data with ⟨r, s1⟩
    have hw := @lookup_wf env s name data hwfe hs hm
    rw [hlk] at hw
    dsimp only at hw ⊢
    exact hw
  · dsimp only
    refine ⟨hs, hm, ?_⟩
    intro t hr
    rcases hd : data with _ | _ <;> rw [hd] at hr <;> simp at hr
    · rw [← hr]
      exact symsFind_ne_zero hs hc

theorem resolveDep_ok {env : LoaderEnv} {s : LoaderState}
    {handle : Option Addr} {name : String} (hwfe : WFEnv env)
    (hs : WFSyms s.syms) (hm : WFMods s.imods) :
    (∃ t, (resolveDep env s handle name).1 = some t ∧ isNullSym t = false) ∧
    WFSyms (resolveDep env s handle name).2.syms ∧
    WFMods (resolveDep env s handle name).2.imods := by
  unfold resolveDep
  rcases hrh : resolveHandle env s handle name false with ⟨ropt, s1⟩
  obtain ⟨hs1, him1, hr1⟩ := resolveHandle_wf hwfe hs hm hrh
  have hm1 : WFMods s1.imods := by
    rw [him1]
    exact hm
  rcases hro : ropt with _ | t
  · rcases hrg : resolveGlobal env s1 name false with ⟨r, s3, b⟩
    have hw := @resolveGlobal_wf env s1 name false hwfe hs1 hm1
    rw [hrg] at hw
    dsimp only
    rw [hrg]
    dsimp only at hw ⊢
    refine ⟨⟨r, rfl, ?_⟩, hw.1, hw.2.1⟩
    rcases r with a | nm
    · have ha := hw.2.2 a rfl
      simpa [isNullSym] using ha
    · simp [isNullSym]
  · dsimp only
    refine ⟨⟨t, rfl, ?_⟩, hs1, hm1⟩
    rcases ht : t with a | nm
    · have ha := hr1 a (by rw [hro, ht])
      simpa [isNullSym] using ha
    · simp [isNullSym]

theorem interpSymbols_ok (env : LoaderEnv) (handle : Option Addr)
    (hwfe : WFEnv env) :
    ∀ (names : List String) (s : LoaderState) (acc : List (String × SymAddr)),
      WFSyms s.syms → WFMods s.imods →
      ∃ l s2, interpSymbols env handle s names acc = (.ok l, s2) ∧
        WFSyms s2.syms ∧ WFMods s2.imods := by
  intro names
  induction names with
  | nil =>
    intro s acc hs hm
    exact ⟨acc, s, rfl, hs, hm⟩
  | cons n rest ih =>
    intro s acc hs hm
    obtain ⟨⟨t, ht, htn⟩, hs1, hm1⟩ :=
      @resolveDep_ok env s handle n hwfe hs hm
    rcases hrd : resolveDep env s handle n with ⟨topt, s1⟩
    rw [hrd] at ht hs1 hm1
    dsimp only at ht hs1 hm1
    unfold interpSymbols
    rw [hrd, ht]
    dsimp only
    rw [if_neg (by simp [htn])]
    exact ih s1 (acc ++ [(n, t)]) hs1 hm1

theorem interpRefs_no_exitSym (env : LoaderEnv) (textrva : Nat)
    (hwfe : WFEnv env) :
    ∀ (irefs : List (String × SymbolList)) (s : LoaderState)
      (acc : List (String × SymAddr)), WFSyms s.syms → WFMods s.imods →
      ∀ n, interpRefs env textrva s irefs acc ≠ .exitSymbol n := by
  intro irefs
  induction irefs with
  | nil =>
    intro s acc hs hm n h
    unfold interpRefs at h
    exact IObjOutcome.noConfusion h
  | cons e rest ih =>
    intro s acc hs hm n h
    obtain ⟨mod, sl⟩ := e
    unfold interpRefs at h
    by_cases hrv : sl.rvas ≠ []
    · rw [if_pos hrv] at h
      exact ih s _ hs hm n h
    · rw [if_neg hrv] at h
      rcases hl : loadLibrary env s mod with ⟨hopt, s1⟩
      rw [hl] at h
      rcases hopt with _ | hh
      · exact IObjOutcome.noConfusion h
      · obtain ⟨hs1, hm1⟩ := loadLibrary_wf hwfe hs hm hl
        obtain ⟨l, s2, hsym, hs2, hm2⟩ :=
          interpSymbols_ok env (some hh) hwfe sl.names s1 [] hs1 hm1
        dsimp only at h
        rw [hsym] at h
        dsimp only at h
        exact ih s2 _ hs2 hm2 n h

/-! ## Claim theorems: relocation pre-pass and decode-time binding -/

/-- C5: round-trip through the cached interpretable-object container.
    (1) The packed 64-bit instruction records reproduce the identical
    instruction-info sequence on load (bit layout spec-modelled from the
    container description; fields must fit their widths).  (2) The
    operand-decode table is reproduced identically: keys are
    base64-encoded on save and decoded on load, values copied verbatim.
    (3) The relocation target set is equivalent: the rebuilt relocation
    list is a permutation of the original records transformed exactly as
    the container prescribes — a target the object covers becomes a
    "self" entry at its in-text-section offset target - textvm,
    re-anchored at the load-time text coordinate, and an external target
    keeps its symbol name, re-resolved against its recorded owning module
    at load time (dep).  Validity: every non-covered target's module is
    locatable and is not literally named "self". -/
theorem claim_C5_cache_roundtrip
    (iinfs : List InsnInfo) (metas : List (List Nat × List Nat))
    (irelocs : List (String × Nat)) (cover : Nat → Bool)
    (locMod : Nat → String) (textvm textrva : Nat)
    (dep : String → String → Nat)
    (hinfo : ∀ i ∈ iinfs,
      i.rva < 2 ^ 32 ∧ i.len < 2 ^ 8 ∧ i.itype < 2 ^ 8 ∧ i.reloc < 2 ^ 15)
    (hkeys : ∀ m ∈ metas, ∀ b ∈ m.1, b < 256)
    (hrel : ∀ r ∈ irelocs, cover r.2 = false →
      locMod r.2 ≠ "" ∧ locMod r.2 ≠ "self") :
    (iinfs.map packInsn).map unpackInsn = iinfs ∧
    loadMetas (saveMetas metas) = metas ∧
    List.Perm
      (rebuildRelocs textrva dep (buildIRefs cover locMod textvm [] irelocs))
      (irelocs.map fun r =>
        if cover r.2 then ("self", r.2 - textvm + textrva)
        else (r.1, dep (locMod r.2) r.1)) := by
  refine ⟨map_unpack_pack iinfs hinfo, loadMetas_saveMetas metas hkeys, ?_⟩
  have h := rebuild_buildIRefs cover locMod textvm textrva dep irelocs []
    (fun e he => absurd he (List.not_mem_nil e)) hrel
  simpa [rebuildRelocs] using h

/-- Witness for C5: a one-instruction object, a one-entry operand table
    with a non-ASCII key byte, and two relocations — one covered (self,
    offset 50, re-anchored to 110) and one external (printf via libc) —
    all reproduced on load. -/
theorem claim_C5_witness :
    (([⟨1, 4, 2, true, 3⟩] : List InsnInfo).map packInsn).map unpackInsn
        = [⟨1, 4, 2, true, 3⟩] ∧
    loadMetas (saveMetas [([200, 10], [7])]) = [([200, 10], [7])] ∧
    List.Perm
      (rebuildRelocs 60 (fun _ _ => 777)
        (buildIRefs (fun t => decide (t < 1000)) (fun _ => "libc") 50 []
          [("printf", 5000), ("x", 100)]))
      ([("printf", 5000), ("x", 100)].map fun r =>
        if (fun t => decide (t < 1000)) r.2 then ("self", r.2 - 50 + 60)
        else (r.1, (fun _ _ => 777 : String → String → Nat)
                     ((fun _ => "libc" : Nat → String) r.2) r.1)) :=
  claim_C5_cache_roundtrip [⟨1, 4, 2, true, 3⟩] [([200, 10], [7])]
    [("printf", 5000), ("x", 100)] (fun t => decide (t < 1000))
    (fun _ => "libc") 50 60 (fun _ _ => 777)
    (by decide) (by decide) (by decide)

/-- C6: for x86-64 ELF relocatable objects, the addend recorded in the
    pre-pass equals 0 when the original ELF addend is at most -4 and the
    original addend plus 4 otherwise.  (The code tests addend < -4, but
    at addend = -4 its else-branch also yields -4 + 4 = 0, so the two
    descriptions are extensionally equal.) -/
theorem claim_C6_addend_correction :
    ∀ a : Int, correctedAddendX64 a = if a ≤ -4 then 0 else a + 4 := by
  intro a
  unfold correctedAddendX64
  split <;> split <;> omega

/-- C7 counterexample: an instruction of length 5 at rva 100 whose byte
    range carries a pre-pass relocation entry at offset 4 (address 104,
    inside the instruction) is not bound: the decode-loop scan only
    visits offsets 1 through len - 4 = 1, so the relocation search comes
    back empty, contradicting the claim that a relocation landing at any
    position inside the instruction is found. -/
theorem claim_C7_counterexample :
    (∃ o, o < 5 ∧ ([104] : List Nat).contains (100 + o)) ∧
      findRelocX64 [104] 100 5 = none :=
  ⟨⟨4, by decide, by decide⟩, by decide⟩

/-- C7 amended: on x86-64 an instruction is bound to a relocation exactly
    when some trailing byte offset i with 1 ≤ i and i + 4 ≤ len carries a
    pre-pass relocation entry — the offsets at which a 4-byte relocation
    field both starts after the first instruction byte and fits inside
    the instruction; offset 0 and the last three byte offsets are never
    searched. -/
theorem claim_C7_reloc_scan_amended :
    ∀ (rsyms : List Nat) (rva len : Nat),
      (findRelocX64 rsyms rva len).isSome
        ↔ ∃ i, 1 ≤ i ∧ i + 4 ≤ len ∧ rsyms.contains (rva + i) := by
  intro rsyms rva len
  unfold findRelocX64
  rw [List.find?_isSome]
  constructor
  · rintro ⟨i, hi, hp⟩
    rw [List.mem_range'_1] at hi
    exact ⟨i, hi.1, by omega, hp⟩
  · rintro ⟨i, h1, h2, hp⟩
    exact ⟨i, by rw [List.mem_range'_1]; omega, hp⟩

/-- C3: for every text section, the instruction-info list produced by the
    decode loop is strictly increasing by rva, and the lower_bound search
    of Object::insnInfo returns exactly the record containing any
    in-range address q — mid-instruction addresses included — where
    in-range means within the decoded byte span.  Hypothesis: the
    decoder always reports a positive length (the LLVM disassembler
    reports at least one byte for anything it accepts; the failure arms
    substitute skipsz ≥ 1 on their own), which also makes any fuel of at
    least size reproduce the C++ loop exactly. -/
theorem claim_C3_insn_order_and_search (arch : Arch) (dec : Nat → Decoded)
    (frva size fuel : Nat)
    (hlen : ∀ o, 1 ≤ insnLen arch (dec o)) :
    (decodeLoop arch dec frva size fuel 0).Pairwise
        (fun a b => a.rva < b.rva) ∧
    (∀ q, frva ≤ q →
        q < frva + sumLen (decodeLoop arch dec frva size fuel 0) →
        ∃ r, insnInfoLookup (decodeLoop arch dec frva size fuel 0) q = some r ∧
          r.rva ≤ q ∧ q < r.rva + r.len ∧
          (∀ r', r' ∈ decodeLoop arch dec frva size fuel 0 →
              r'.rva ≤ q → q < r'.rva + r'.len → r' = r)) := by
  have hc : Contig frva (decodeLoop arch dec frva size fuel 0) := by
    have := decodeLoop_contig arch dec frva size hlen fuel 0
    simpa using this
  refine ⟨contig_pairwise hc, ?_⟩
  intro q h1 h2
  obtain ⟨r, hr, hr1, hr2⟩ := contig_lookup hc q h1 h2
  refine ⟨r, hr, hr1, hr2, ?_⟩
  intro r' hmem' h3 h4
  have hmem : r ∈ decodeLoop arch dec frva size fuel 0 := by
    unfold insnInfoLookup lowerBound at hr
    exact List.mem_of_find?_eq_some hr
  exact contig_unique hc q r' r hmem' hmem h3 h4 hr1 hr2

/-- Witness for C3: a 4-byte section decoding into two 2-byte
    instructions; the list is strictly increasing and the mid-instruction
    address 3 finds the record starting at 2. -/
theorem claim_C3_witness :
    ((decodeLoop .x86_64 (fun _ => ⟨.success, 2, 5⟩) 0 4 4 0).Pairwise
        (fun a b => a.rva < b.rva)) ∧
    (∃ r, insnInfoLookup (decodeLoop .x86_64 (fun _ => ⟨.success, 2, 5⟩) 0 4 4 0) 3
        = some r ∧ r.rva ≤ 3 ∧ 3 < r.rva + r.len) := by
  have h := claim_C3_insn_order_and_search .x86_64 (fun _ => ⟨.success, 2, 5⟩)
    0 4 4 (fun o => by simp [insnLen])
  obtain ⟨r, hr, hr1, hr2, _⟩ := h.2 3 (by omega) (by decide)
  exact ⟨h.1, r, hr, hr1, hr2⟩

/-- C4 counterexample: a reachable four-step decode trace on a COFF
    AArch64 object violates the at-most-one-record-per-(target, kind)
    invariant.  All four instructions reference the same undefined
    symbol "foo" (function-kind target .direct 42; the page-offset-12L
    fixup rewrites a matched record to the data-kind boxed address
    .slot "foo").  Steps: append (42, func); fixup rewrites it to
    (slot, data); the pair (42, func) no longer exists so step 3 appends
    it again; the second fixup rewrites that copy too.  The final table
    holds the pair (slot "foo", data) twice, and the two fixed-up
    instructions carry the distinct record indices 0 and 1. -/
theorem claim_C4_counterexample :
    (let rd : String → SymAddr := fun n => .slot n
     let s1 := dedupStep false rd [] "foo" (.direct 42) .func
     let s2 := dedupStep true rd s1.relocs "foo" (.direct 42) .func
     let s3 := dedupStep false rd s2.relocs "foo" (.direct 42) .func
     let s4 := dedupStep true rd s3.relocs "foo" (.direct 42) .func
     pairCount s4.relocs (.slot "foo") .data = 2 ∧ s2.index = 0 ∧ s4.index = 1) := by
  decide

/-- C4 amended: outside the COFF AArch64 page-offset-12L fixup, the
    deduplication holds as claimed: resolving to a (target, kind) pair
    with an existing record leaves the table unchanged and records that
    record's index; resolving to a new pair appends one record at the
    end; and the at-most-one-record-per-pair invariant is preserved.
    (The fixup path can rewrite a matched record in place and duplicate a
    pair, as the counterexample shows.) -/
theorem claim_C4_dedup_amended (rd : String → SymAddr) (relocs : List RelocInfo)
    (name : String) (rtaddr : SymAddr) (symtype : SymKind) :
    ((∃ r ∈ relocs, r.target = rtaddr ∧ r.rtype = symtype) →
        (dedupStep false rd relocs name rtaddr symtype).relocs = relocs ∧
        ∃ hj : (dedupStep false rd relocs name rtaddr symtype).index < relocs.length,
          (relocs.get ⟨(dedupStep false rd relocs name rtaddr symtype).index, hj⟩).target
              = rtaddr ∧
          (relocs.get ⟨(dedupStep false rd relocs name rtaddr symtype).index, hj⟩).rtype
              = symtype) ∧
    ((¬ ∃ r ∈ relocs, r.target = rtaddr ∧ r.rtype = symtype) →
        (dedupStep false rd relocs name rtaddr symtype).relocs
            = relocs ++ [⟨name, rtaddr, symtype⟩] ∧
        (dedupStep false rd relocs name rtaddr symtype).index = relocs.length) ∧
    ((∀ t k, pairCount relocs t k ≤ 1) →
        ∀ t k, pairCount (dedupStep false rd relocs name rtaddr symtype).relocs t k ≤ 1) := by
  refine ⟨?_, ?_, ?_⟩
  · intro hex
    rcases hmi : firstMatchIndex relocs rtaddr symtype with _ | j
    · obtain ⟨r, hr, hp⟩ := hex
      exact absurd hp (firstMatchIndex_eq_none_iff.mp hmi r hr)
    · obtain ⟨hj, hget⟩ := firstMatchIndex_spec hmi
      refine ⟨by simp [dedupStep, hmi], ?_⟩
      simp only [dedupStep, hmi]
      exact ⟨hj, hget.1, hget.2⟩
  · intro hnex
    have hmi : firstMatchIndex relocs rtaddr symtype = none :=
      firstMatchIndex_none (fun r hr hp => hnex ⟨r, hr, hp⟩)
    simp [dedupStep, hmi]
  · intro hinv t k
    rcases hmi : firstMatchIndex relocs rtaddr symtype with _ | j
    · have hnone := firstMatchIndex_eq_none_iff.mp hmi
      simp only [dedupStep, hmi]
      rw [pairCount_append]
      by_cases hp : (⟨name, rtaddr, symtype⟩ : RelocInfo).target = t ∧
          (⟨name, rtaddr, symtype⟩ : RelocInfo).rtype = k
      · have hz : pairCount relocs t k = 0 := by
          apply pairCount_eq_zero
          intro r hr hc
          obtain ⟨h1, h2⟩ := hp
          exact hnone r hr ⟨by rw [hc.1, ← h1], by rw [hc.2, ← h2]⟩
        rw [hz]
        split <;> omega
      · rw [if_neg hp]
        simpa using hinv t k
    · simp only [dedupStep, hmi]
      exact hinv t k

theorem lookupTiers_none {env : LoaderEnv} {s : LoaderState} {name : String}
    (hio : ∀ io ∈ s.imods, io.locateSym name = none)
    (hfs : ∀ h, env.findSymbol h name = none) :
    lookupTiers env s name = none := by
  unfold lookupTiers
  rcases hm : s.mhandles with _ | ⟨p, rest⟩
  · dsimp only
    rw [List.findSome?_eq_none_iff.mpr hio]
    exact hfs none
  · dsimp only
    rw [List.findSome?_eq_none_iff.mpr (fun x _ => hfs (some x.2))]
    exact hfs none

/-- C1: the terminal fallback of the global resolver
    (ModuleLoader::lookup, reached through ModuleLoader::resolve, exposed
    as Loader::locateSymbol): when a name is cached nowhere, found in no
    iobject module, by no loaded or process-wide native lookup, and the
    symbol-hash index has no entry for it, resolution still returns a
    result — the abort-routine address is recorded as the resolved target
    and memoized — rather than an error or an exception (the model has no
    failure outcome on this path at all). -/
theorem claim_C1_terminal_fallback (env : LoaderEnv) (s : LoaderState)
    (name : String) (data : Bool)
    (hc : symsFind s.syms name = none)
    (hio : ∀ io ∈ s.imods, io.locateSym name = none)
    (hfs : ∀ h, env.findSymbol h name = none)
    (hrt : env.rtlibFind name = none) :
    (resolveGlobal env s name data).1
        = (if data then SymAddr.slot name else .direct env.abortAddr) ∧
    symsFind (resolveGlobal env s name data).2.1.syms name
        = some env.abortAddr ∧
    (resolveGlobal env s name data).2.2 = true := by
  have hio' : ∀ io ∈ (boostStep s name).imods, io.locateSym name = none := by
    rw [boostStep_imods]
    exact hio
  have hti : lookupTiers env (boostStep s name) name = none :=
    lookupTiers_none hio' hfs
  have h0 : symsFind (boostStep s name).syms name = none := by
    rw [boostStep_syms]
    exact hc
  have hlk : lookup env s name data
      = (if data then SymAddr.slot name else .direct env.abortAddr,
         { boostStep s name with
           syms := symsInsert (boostStep s name).syms name env.abortAddr }) := by
    unfold lookup
    rw [hti, hrt]
  have hrg : resolveGlobal env s name data
      = ((if data then SymAddr.slot name else .direct env.abortAddr),
         { boostStep s name with
           syms := symsInsert (boostStep s name).syms name env.abortAddr },
         true) := by
    unfold resolveGlobal
    rw [hc, hlk]
  rw [hrg]
  exact ⟨rfl, symsFind_symsInsert_of_none _ _ _ h0, rfl⟩

/-- Witness for C1: resolving a symbol absent from every tier of envNone
    yields the abort address 7, memoizes it, and runs the tiered
    search. -/
theorem claim_C1_witness :
    (resolveGlobal envNone stEmpty "nosuchsym" false).1 = .direct 7 ∧
    symsFind (resolveGlobal envNone stEmpty "nosuchsym" false).2.1.syms
        "nosuchsym" = some 7 ∧
    (resolveGlobal envNone stEmpty "nosuchsym" false).2.2 = true := by
  have h := claim_C1_terminal_fallback envNone stEmpty "nosuchsym" false rfl
    (by intro io hio; cases hio) (fun _ => rfl) rfl
  simpa [envNone] using h

/-- C2: every resolution through the global resolver — the terminal abort
    substitution included — memoizes its target in the process-wide
    symbol cache before returning, and a second resolve of the same name
    with the same data flag answers from that cache: same address, no
    state change, and the tiered module search (lookup) does not run. -/
theorem claim_C2_memoization (env : LoaderEnv) (s : LoaderState)
    (name : String) (data : Bool) :
    (symsFind (resolveGlobal env s name data).2.1.syms name).isSome ∧
    resolveGlobal env (resolveGlobal env s name data).2.1 name data
      = ((resolveGlobal env s name data).1,
         (resolveGlobal env s name data).2.1, false) := by
  rcases hc : symsFind s.syms name with _ | v
  · rcases hlk : lookup env s name data with ⟨r, s1⟩
    obtain ⟨t, ht, hr⟩ := lookup_caches env s name data hc
    rw [hlk] at ht hr
    dsimp only at ht hr
    have hrg : resolveGlobal env s name data = (r, s1, true) := by
      unfold resolveGlobal
      rw [hc, hlk]
    rw [hrg]
    dsimp only
    constructor
    · rw [ht]
      rfl
    · unfold resolveGlobal
      rw [ht, hr]
  · have hrg : resolveGlobal env s name data
        = ((if data then SymAddr.slot name else .direct v), s, false) := by
      unfold resolveGlobal
      rw [hc]
    rw [hrg]
    dsimp only
    constructor
    · rw [hc]
      rfl
    · exact hrg

/-- C8: when a loaded file begins with the interpretable-object magic
    number but its version field differs from the build's version
    constant, InterpObject construction stops at the version check: the
    outcome is the logged invalid-object state — not a crash or exit
    (.exitModule / .exitSymbol are the only terminating outcomes and this
    is neither) and not a regeneration (no constructor path writes a
    cache; generateCache runs only from the destructor of a validly
    parsed non-cache object). -/
theorem claim_C8_version_mismatch (env : LoaderEnv) (s : LoaderState)
    (magicC versionC : Nat) (file : List Nat)
    (parse : List Nat → Option ParsedIObj) (textrva : Nat)
    (hm : readU32 file 0 = magicC) (hv : readU32 file 4 ≠ versionC) :
    interpCtor env s magicC versionC file parse textrva = .invalidVersion := by
  unfold interpCtor
  rw [if_neg (not_not_intro hm), if_pos hv]

/-- Witness for C8: an 8-byte file carrying magic 100 and version 6
    against build version 5 produces the invalid-version outcome. -/
theorem claim_C8_witness :
    interpCtor envNone stEmpty 100 5 [100, 0, 0, 0, 6, 0, 0, 0]
        (fun _ => none) 0 = .invalidVersion :=
  claim_C8_version_mismatch envNone stEmpty 100 5 [100, 0, 0, 0, 6, 0, 0, 0]
    (fun _ => none) 0 rfl (by decide)

/-- C9: a symbol-resolution failure never terminates the process.  In
    the InterpObject constructor — where cached relocations are
    re-resolved against their named dependent modules — the per-symbol
    exit branch is unreachable: the scoped resolve either finds the
    symbol or the global resolver substitutes the abort-routine address
    (claim C1), so every dependent symbol yields a relocation entry and
    construction never ends in the exitSymbol outcome, on any input.
    (The outcomes that do terminate are module-load failure and the
    invalid-object classes.)  Well-formedness: no collaborator reports a
    hit at the null address and the abort routine is at a real
    address. -/
theorem claim_C9_no_exit_on_symbol_failure (env : LoaderEnv) (s : LoaderState)
    (magicC versionC : Nat) (file : List Nat)
    (parse : List Nat → Option ParsedIObj) (textrva : Nat)
    (hwfe : WFEnv env) (hs : WFSyms s.syms) (hm : WFMods s.imods)
    (n : String) :
    interpCtor env s magicC versionC file parse textrva ≠ .exitSymbol n := by
  unfold interpCtor
  by_cases h1 : readU32 file 0 ≠ magicC
  · rw [if_pos h1]
    exact fun h => IObjOutcome.noConfusion h
  · rw [if_neg h1]
    by_cases h2 : readU32 file 4 ≠ versionC
    · rw [if_pos h2]
      exact fun h => IObjOutcome.noConfusion h
    · rw [if_neg h2]
      rcases hp : parse file with _ | p
      · exact fun h => IObjOutcome.noConfusion h
      · exact interpRefs_no_exitSym env textrva hwfe p.irefsyms s [] hs hm n

/-- Witness for C9: a well-formed container whose dependency list names
    the symbol sin from module libm, loaded into an environment that
    cannot resolve anything; construction still never exits through the
    unresolved-symbol branch. -/
theorem claim_C9_witness :
    interpCtor envNone stEmpty 100 5 [100, 0, 0, 0, 5, 0, 0, 0]
        (fun _ => some ⟨[], [], [("libm", ⟨[], ["sin"]⟩)]⟩) 0
      ≠ .exitSymbol "sin" :=
  claim_C9_no_exit_on_symbol_failure envNone stEmpty 100 5
    [100, 0, 0, 0, 5, 0, 0, 0]
    (fun _ => some ⟨[], [], [("libm", ⟨[], ["sin"]⟩)]⟩) 0
    ⟨by decide, fun h n hx => Option.noConfusion hx,
     fun p o hx => Option.noConfusion hx⟩
    (fun p hp => absurd hp (List.not_mem_nil p))
    (fun io hio => absurd hio (List.not_mem_nil io)) "sin"

/-- C10: ModuleLoader::cacheObject is idempotent per path: after caching
    an iobject module, caching another object with the same path leaves
    both the iobject module list and the module-handle map unchanged. -/
theorem claim_C10_cacheObject_idempotent :
    ∀ (s : LoaderState) (o o2 : IObjModule), o2.path = o.path →
      cacheObject (cacheObject s o) o2 = cacheObject s o := by
  intro s o o2 h
  by_cases hin : (mapFind s.mhandles o.path).isSome
  · have h1 : cacheObject s o = s := by simp [cacheObject, hin]
    rw [h1]
    simp [cacheObject, h, hin]
  · have h1 : cacheObject s o
        = { s with imods := s.imods ++ [o],
                   mhandles := mapInsert s.mhandles o.path o.addr } := by
      simp [cacheObject, hin]
    rw [h1]
    have h2 : (mapFind (mapInsert s.mhandles o.path o.addr) o2.path).isSome := by
      rw [h]
      exact mapFind_mapInsert_self s.mhandles o.path o.addr
    simp [cacheObject, h2]

/-- Witness for C10: registering a second module with the path of an
    already-registered one changes nothing. -/
theorem claim_C10_witness :
    cacheObject (cacheObject stEmpty ioFirst) ioSecond
      = cacheObject stEmpty ioFirst :=
  claim_C10_cacheObject_idempotent stEmpty ioFirst ioSecond rfl

/-- Witness for C4 amended: re-resolving a pair that already has a record
    (no fixup) leaves the record list unchanged. -/
theorem claim_C4_dedup_amended_witness :
    (dedupStep false (fun n => SymAddr.slot n)
        [⟨"f", .direct 5, .func⟩] "f" (.direct 5) .func).relocs
      = [⟨"f", .direct 5, .func⟩] :=
  ((claim_C4_dedup_amended (fun n => SymAddr.slot n)
      [⟨"f", .direct 5, .func⟩] "f" (.direct 5) .func).1
    ⟨⟨"f", .direct 5, .func⟩, by simp, rfl, rfl⟩).1

end Icpp
